import Mathlib

/-!
Shallow embedding of the leaderboard HTML parser
(`src/components/parser.py`) for the artificial-analysis
leaderboards scraper, together with theorems settling the frozen
claims about `parse_leaderboard` and `extract_provider_name`.

The embedding works over the parse tree that Beautiful Soup exposes to
the parser: a document is reduced to the pieces of state the code ever
reads (the `__NEXT_DATA__` script string and the first `<table>`), a
table to its `<thead>` rows (already turned into the cell-text lists
the code builds with `get_text(" ", strip=True)`), its `<tbody>` rows
(lists of cells carrying the first `<img>` and the
`get_text(strip=True)` text), and any `<tr>` rows outside a `tbody`,
which the code never visits. String primitives (strip, lower,
endswith, basename, splitext) are re-implemented structurally over
character lists so that every definition evaluates inside the kernel.
-/

/-- Img models the first `<img>` element found inside a table cell:
its `alt` and `src` attributes, `none` when the attribute is absent
(`img.get(attr, '')` then yields `''`). -/
structure Img where
  alt : Option String
  src : Option String

/-- Cell models one `<td>`/`<th>` of a body row: the first `<img>`
descendant, if any (`cell.find('img')`), and the visible text
`cell.get_text(strip=True)`. -/
structure Cell where
  img : Option Img
  text : String

/-- Table models the first `<table>` of the document as the parser
reads it: `thead` is `table.find('thead')` reduced to the list of
per-row cell-text lists the code extracts, `tbody` is
`table.find('tbody')` reduced to its rows of cells, and `looseRows`
are `<tr>` elements that sit outside any `tbody` (the code never
reaches them, since rows are only ever read through `find('tbody')`). -/
structure Table where
  thead : Option (List (List String))
  tbody : Option (List (List Cell))
  looseRows : List (List Cell) := []

/-- Document models the parsed HTML document: the string content of
the `script#__NEXT_DATA__` element, if present, and the first
`<table>`, if any. The code decodes the script content as JSON purely
for logging (the decoded value is discarded and `JSONDecodeError` is
caught), so the output depends only on `table`. -/
structure Document where
  nextData : Option String
  table : Option Table

/-- strTruthy is Python string truthiness: `bool(s)` is `True` iff the
string is non-empty. -/
def strTruthy (s : String) : Bool :=
  decide (s ≠ "")

/-- strTrim is Python `str.strip()`: drop leading and trailing
whitespace. -/
def strTrim (s : String) : String :=
  String.mk (((s.toList.dropWhile Char.isWhitespace).reverse.dropWhile
    Char.isWhitespace).reverse)

/-- strLower is Python `str.lower()` (ASCII case folding, which is all
the parser's inputs use). -/
def strLower (s : String) : String :=
  String.mk (s.toList.map Char.toLower)

/-- strEndsWith is Python `str.endswith(pat)`. -/
def strEndsWith (s pat : String) : Bool :=
  pat.toList.reverse.isPrefixOf s.toList.reverse

/-- strDropRight is Python `s[:-n]` for `0 < n ≤ len(s)`: remove the
last `n` characters. -/
def strDropRight (s : String) (n : Nat) : String :=
  String.mk (s.toList.take (s.toList.length - n))

/-- charsContains decides Python's `pat in hay` substring test over
character lists. -/
def charsContains (hay pat : List Char) : Bool :=
  match hay with
  | [] => pat.isEmpty
  | _ :: t => pat.isPrefixOf hay || charsContains t pat

/-- strContains is Python's `pat in hay` on strings. -/
def strContains (hay pat : String) : Bool :=
  charsContains hay.toList pat.toList

/-- basenameStr is `os.path.basename` on POSIX paths: the substring
after the last slash. -/
def basenameStr (s : String) : String :=
  String.mk ((s.toList.reverse.takeWhile (fun c => c != '/')).reverse)

/-- dropExt is `os.path.splitext(s)[0]` for a path without slashes:
split at the last dot, except that the leading run of dots of the name
never starts an extension. -/
def dropExt (s : String) : String :=
  let cs := s.toList
  let dots := cs.takeWhile (fun c => c == '.')
  let rest := cs.dropWhile (fun c => c == '.')
  if rest.contains '.' then
    String.mk (dots ++ ((rest.reverse.dropWhile (fun c => c != '.')).drop 1).reverse)
  else s

/-- extract_provider_name mirrors `extract_provider_name` (parser.py
lines 22-53): prefer the trimmed `alt` text of the cell's image,
dropping a case-insensitive trailing " logo" suffix; otherwise fall
back to the basename of the trimmed `src` without its extension;
otherwise the empty string. -/
def extract_provider_name (cell : Cell) : String :=
  match cell.img with
  | none => ""
  | some img =>
      let altText := strTrim (img.alt.getD (""))
      if strTruthy altText then
        if strEndsWith (strLower altText) (" logo") then strTrim (strDropRight altText 5)
        else altText
      else
        let src := strTrim (img.src.getD (""))
        if strTruthy src then dropExt (basenameStr src)
        else ""

/-- known_header_patterns is the fixed list of label substrings from
parser.py line 112. -/
def known_header_patterns : List String :=
  ["model", "performance", "score", "rank", "provider", "name", "accuracy"]

/-- scoreA is the Source A score of one header-row candidate
(parser.py lines 118-120): the number of known patterns that occur in
at least one non-empty, lowercased cell text. -/
def scoreA (headers : List String) : Nat :=
  let lowerHeaders := (headers.filter strTruthy).map strLower
  known_header_patterns.countP (fun p => lowerHeaders.any (fun h => strContains h p))

/-- scoreAInt is `scoreA` viewed in `Int`, as the code compares it
against the `-1` sentinel. -/
def scoreAInt (headers : List String) : Int :=
  (scoreA headers : Int)

/-- bestAAux is the Source A selection loop (parser.py lines 113-123):
running `(best_idx, best_score)` state, strict improvement only. -/
def bestAAux (idx : Nat) (bi bs : Int) : List (List String) → Int × Int
  | [] => (bi, bs)
  | h :: t =>
      if scoreAInt h > bs then bestAAux (idx + 1) (idx : Int) (scoreAInt h) t
      else bestAAux (idx + 1) bi bs t

/-- quality is the Step 2 quality score of a candidate (parser.py
lines 130-134): distinct lowercased non-blank cell texts minus the
number of blank cells. -/
def quality (headers : List String) : Int :=
  let nonEmpty := headers.filter (fun h => strTruthy h && strTruthy (strTrim h))
  ((nonEmpty.map strLower).dedup.length : Int)
    - ((headers.length - nonEmpty.length : Nat) : Int)

/-- bestBAux is the Step 2 selection loop (parser.py lines 126-137):
`best_idx` starts at 0, `best_quality` at -1, strict improvement only. -/
def bestBAux (idx bi : Nat) (bq : Int) : List (List String) → Nat × Int
  | [] => (bi, bq)
  | h :: t =>
      if quality h > bq then bestBAux (idx + 1) idx (quality h) t
      else bestBAux (idx + 1) bi bq t

/-- selectHeaderIdx is the full header-row selection over the thead
candidates: the Source A loop, then the Step 2 loop if and only if
`best_idx` is still the `-1` sentinel afterwards. -/
def selectHeaderIdx (l : List (List String)) : Nat :=
  let ab := bestAAux 0 (-1) (-1) l
  if ab.1 = -1 then (bestBAux 0 0 (-1) l).1 else ab.1.toNat

/-- normalizeRow converts a body row to cell strings (parser.py lines
152-159 and 186-193): the first cell goes through provider extraction,
every other cell contributes its text. -/
def normalizeRow (row : List Cell) : List String :=
  row.enum.map (fun p => if p.1 = 0 then extract_provider_name p.2 else p.2.text)

/-- meaningful is the `cell_data and any(cell_data)` test: the row has
cells and at least one normalized cell is a non-empty string. -/
def meaningful (cd : List String) : Bool :=
  (!cd.isEmpty) && cd.any strTruthy

/-- adoptHeader builds the Source C header from an adopted body row
(parser.py lines 163-169): trimmed cell text when non-blank, else the
placeholder `column_<1-based-position>`. -/
def adoptHeader (cd : List String) : List String :=
  cd.enum.map (fun p =>
    if strTruthy (strTrim p.2) then strTrim p.2 else "column_" ++ toString (p.1 + 1))

/-- sourceCAux is the Source C scan (parser.py lines 146-174): walk
the body rows in order and adopt the first meaningful one as header,
remembering its index. -/
def sourceCAux (i : Nat) : List (List Cell) → Option (Nat × List String)
  | [] => none
  | r :: rs =>
      let cd := normalizeRow r
      if meaningful cd then some (i, adoptHeader cd) else sourceCAux (i + 1) rs

/-- dataRows is the data-extraction pass (parser.py lines 176-197):
enumerate the body rows, skip the row consumed as header (if any),
keep only meaningful rows. -/
def dataRows (hidx : Option Nat) (rows : List (List Cell)) : List (List String) :=
  ((rows.enum.filter
      (fun p => decide (hidx ≠ some p.1) && meaningful (normalizeRow p.2))).map
    (fun p => normalizeRow p.2))

/-- parse_leaderboard mirrors `parse_leaderboard` (parser.py lines
56-200). The `__NEXT_DATA__` script is only decoded for logging (the
value is discarded, decode errors are caught), so the result is
computed from the first table alone: a header chosen from the thead
candidates when there are any, otherwise the Source C fallback over
the body rows, followed by the meaningful data rows. -/
def parse_leaderboard (doc : Document) : List (List String) :=
  match doc.table with
  | none => []
  | some t =>
      match t.thead.getD [] with
      | [] =>
          let bodyRows := t.tbody.getD []
          match sourceCAux 0 bodyRows with
          | some p => p.2 :: dataRows (some p.1) bodyRows
          | none => dataRows none bodyRows
      | h0 :: hrest =>
          (h0 :: hrest).getD (selectHeaderIdx (h0 :: hrest)) []
            :: dataRows none (t.tbody.getD [])

/-- cellLabelCount is the scoring the spec describes for Source A:
the number of non-empty cell texts that contain (case-insensitively)
at least one known label substring. It counts matching cells, while
the code's `scoreA` counts matching patterns. -/
def cellLabelCount (headers : List String) : Nat :=
  (headers.filter strTruthy).countP
    (fun h => known_header_patterns.any (fun p => strContains (strLower h) p))

/-- specAdoptHeader is the Source C header adoption as the spec words
it: replace exactly the empty cells by `column_<1-based-position>` and
keep every other cell as-is. -/
def specAdoptHeader (cd : List String) : List String :=
  cd.enum.map (fun p =>
    if p.2 = "" then "column_" ++ toString (p.1 + 1) else p.2)

/-- specProviderName is provider extraction as the spec words it:
identical alt handling, but the src fallback takes the basename of the
raw `src` attribute (no trimming) and only returns the empty string
when `src` is exactly empty. -/
def specProviderName (cell : Cell) : String :=
  match cell.img with
  | none => ""
  | some img =>
      let altText := strTrim (img.alt.getD (""))
      if altText ≠ "" then
        if strEndsWith (strLower altText) (" logo") then strTrim (strDropRight altText 5)
        else altText
      else
        let src := img.src.getD ("")
        if src ≠ "" then dropExt (basenameStr src)
        else ""

/-- specProviderNameTrim is the amended spec wording of provider
extraction: as `specProviderName`, but the src fallback first trims
surrounding whitespace from `src`, and the empty string is returned
when `src` is empty or whitespace-only. -/
def specProviderNameTrim (cell : Cell) : String :=
  match cell.img with
  | none => ""
  | some img =>
      let altText := strTrim (img.alt.getD (""))
      if altText ≠ "" then
        if strEndsWith (strLower altText) (" logo") then strTrim (strDropRight altText 5)
        else altText
      else
        let src := strTrim (img.src.getD (""))
        if src ≠ "" then dropExt (basenameStr src)
        else ""

/-- isFirstStrictMaxA says index `i` is the candidate the Source A
loop picks: in bounds, of maximal `scoreA`, and strictly better than
every earlier candidate (first maximum wins). -/
def isFirstStrictMaxA (l : List (List String)) (i : Nat) : Prop :=
  i < l.length ∧
    (∀ j, j < l.length → scoreA (l.getD j []) ≤ scoreA (l.getD i [])) ∧
    (∀ j, j < i → scoreA (l.getD j []) < scoreA (l.getD i []))

/-- c4cell is a body cell whose provider name normalizes to the
whitespace-only string " ": the image has no alt and its src basename
is " .svg", whose splitext stem is " ". -/
def c4cell : Cell :=
  { img := some { alt := none, src := some ("x/ .svg") }, text := "" }

/-- c5cell is a body cell whose image has an empty alt and a src with
a leading space, where trimming the src (as the code does) and not
trimming it (as the spec words it) give different provider names. -/
def c5cell : Cell :=
  { img := some { alt := some (""), src := some (" b.svg") }, text := "" }

/-- c3cellOA is a body cell whose provider name is "OpenAI". -/
def c3cellOA : Cell :=
  { img := some { alt := some ("OpenAI"), src := none }, text := "" }

/-- c3tbl is a headerless one-row table used to witness the Source C
header path. -/
def c3tbl : Table :=
  { thead := none, tbody := some [[c3cellOA]] }

/-- c4rows is a headerless body with one meaningful row (a provider
logo cell and a text cell). -/
def c4rows : List (List Cell) :=
  [[{ img := some { alt := some ("Fireworks logo"), src := none }, text := "" },
    { img := none, text := "A" }]]

/-- c4tbl is the table holding `c4rows` with no header section. -/
def c4tbl : Table :=
  { thead := none, tbody := some c4rows }

theorem strTruthy_eq_true {s : String} : strTruthy s = true ↔ s ≠ "" := by
  simp [strTruthy]

theorem meaningful_eq_any (cd : List String) : meaningful cd = cd.any strTruthy := by
  cases cd <;> simp [meaningful]

theorem meaningful_iff (cd : List String) :
    meaningful cd = true ↔ ∃ c ∈ cd, c ≠ "" := by
  rw [meaningful_eq_any]
  simp [List.any_eq_true, strTruthy]

theorem parse_eq_of_thead (nd : Option String) (t : Table) (h0 : List String)
    (hrest : List (List String)) (h1 : t.thead = some (h0 :: hrest)) :
    parse_leaderboard { nextData := nd, table := some t } =
      (h0 :: hrest).getD (selectHeaderIdx (h0 :: hrest)) []
        :: dataRows none (t.tbody.getD []) := by
  simp only [parse_leaderboard, h1, Option.getD_some]

theorem parse_eq_of_nothead (nd : Option String) (t : Table)
    (h1 : t.thead = none ∨ t.thead = some []) :
    parse_leaderboard { nextData := nd, table := some t } =
      match sourceCAux 0 (t.tbody.getD []) with
      | some p => p.2 :: dataRows (some p.1) (t.tbody.getD [])
      | none => dataRows none (t.tbody.getD []) := by
  rcases h1 with h | h <;>
    simp only [parse_leaderboard, h, Option.getD_none, Option.getD_some]

/-- C1 (code bug): with a header section of two rows where no cell
contains any known label substring (every Source A score is 0), the
quality-score pass would pick row 1, but `parse_leaderboard` returns
row 0: the first candidate already set `best_idx` (any score beats the
-1 sentinel), so the Step 2 guard `best_idx == -1` can never fire and
the quality fallback that the code's own comment promises for "no
good match found" is unreachable. -/
theorem c1_quality_fallback_unreachable :
    scoreA ["", "x"] = 0 ∧ scoreA ["a", "b"] = 0 ∧
    (bestBAux 0 0 (-1) [["", "x"], ["a", "b"]]).1 = 1 ∧
    parse_leaderboard
      { nextData := none,
        table := some { thead := some [["", "x"], ["a", "b"]], tbody := none } } =
      [["", "x"]] := by decide

/-- C2 (counterexample): the code scores a candidate by the number of
matching patterns, not the number of matching cells. On the candidates
`["model name"]` and `["provider", "rank"]` the cell counts are 1 and
2, so the claim's rule would pick the second candidate, yet the parser
returns the first (both have pattern count 2 and the first strict
improvement wins). -/
theorem c2_cell_count_cex :
    parse_leaderboard
      { nextData := none,
        table := some
          { thead := some [["model name"], ["provider", "rank"]], tbody := none } } =
      [["model name"]] ∧
    cellLabelCount ["model name"] < cellLabelCount ["provider", "rank"] := by decide

/-- C3 (counterexample): a header section whose only row is
`["", ""]` is selected as the header, so `parse_leaderboard` returns a
non-empty result whose first row contains empty cells. -/
theorem c3_empty_header_cell_cex :
    parse_leaderboard
      { nextData := none,
        table := some { thead := some [["", ""]], tbody := none } } = [["", ""]] ∧
    ([["", ""]] : List (List String)) ≠ [] ∧ "" ∈ (["", ""] : List String) := by decide

/-- C4 (counterexample): a headerless table whose only body row
normalizes to the single cell " " (a non-empty string) is adopted as
the header, but the whitespace-only cell becomes the placeholder
`column_1` instead of being kept as the claim's wording ("every empty
cell replaced") requires. -/
theorem c4_whitespace_cell_cex :
    normalizeRow [c4cell] = [" "] ∧
    (∃ c ∈ normalizeRow [c4cell], c ≠ "") ∧
    specAdoptHeader (normalizeRow [c4cell]) = [" "] ∧
    parse_leaderboard
      { nextData := none,
        table := some { thead := none, tbody := some [[c4cell]] } } =
      [["column_1"]] := by decide

/-- C5 (counterexample): on an image with empty alt and
`src = " b.svg"` the code trims the src before taking the basename and
returns "b", while the claim's wording (basename of the raw src
attribute) yields " b". -/
theorem c5_untrimmed_src_cex :
    extract_provider_name c5cell = "b" ∧ specProviderName c5cell = " b" ∧
    extract_provider_name c5cell ≠ specProviderName c5cell := by decide

/-- C5 (amended): `extract_provider_name` returns the empty string
when the cell has no image; otherwise the trimmed alt text with a
case-insensitive trailing " logo" suffix stripped and re-trimmed when
present, else the trimmed alt as-is; otherwise the basename of the
trimmed src attribute with its extension removed; and the empty string
when the src is empty or whitespace-only. -/
theorem c5_provider_name_amended (cell : Cell) :
    extract_provider_name cell = specProviderNameTrim cell := by
  obtain ⟨img, _text⟩ := cell
  cases img with
  | none => rfl
  | some i =>
      simp only [extract_provider_name, specProviderNameTrim]
      by_cases h1 : strTrim (i.alt.getD ("")) = ""
      · simp only [strTruthy, h1, decide_not]
        by_cases h2 : strTrim (i.src.getD ("")) = "" <;> simp [h2]
      · simp [strTruthy, h1]

/-- C7: when the document has no table, `parse_leaderboard` returns
the empty list (the embedding is total, so no exception is possible). -/
theorem c7_no_table_empty (d : Document) (h : d.table = none) :
    parse_leaderboard d = [] := by
  obtain ⟨nd, tb⟩ := d
  subst h
  rfl

theorem c7_no_table_empty_w :
    ({ nextData := some ("no table here"), table := none } : Document).table = none ∧
    parse_leaderboard { nextData := some ("no table here"), table := none } = [] :=
  ⟨rfl, c7_no_table_empty { nextData := some ("no table here"), table := none } rfl⟩

/-- C10: the result of `parse_leaderboard` does not depend on the
`__NEXT_DATA__` script content: two documents with the same table and
any two script payloads (including malformed JSON) parse identically,
and the embedding is total, so the JSON handling cannot raise. -/
theorem c10_next_data_ignored (nd1 nd2 : Option String) (t : Option Table) :
    parse_leaderboard { nextData := nd1, table := t } =
      parse_leaderboard { nextData := nd2, table := t } := rfl

theorem snd_mem_of_mem_enumFrom {α : Type} {p : Nat × α} :
    ∀ {n : Nat} {l : List α}, p ∈ List.enumFrom n l → p.2 ∈ l := by
  intro n l
  induction l generalizing n with
  | nil => intro h; simp [List.enumFrom] at h
  | cons a t ih =>
      intro h
      rcases List.mem_cons.mp h with h1 | h2
      · rw [h1]; exact List.mem_cons_self a t
      · exact List.mem_cons_of_mem a (ih h2)

theorem snd_mem_of_mem_enum {α : Type} {p : Nat × α} {l : List α}
    (h : p ∈ l.enum) : p.2 ∈ l :=
  snd_mem_of_mem_enumFrom h

theorem exists_ne_of_mem_dataRows {hidx : Option Nat} {rows : List (List Cell)}
    {row : List String} (h : row ∈ dataRows hidx rows) : ∃ c ∈ row, c ≠ "" := by
  simp only [dataRows, List.mem_map] at h
  obtain ⟨p, hp, hrow⟩ := h
  have hpred := (List.mem_filter.mp hp).2
  rw [Bool.and_eq_true] at hpred
  rw [← hrow]
  exact (meaningful_iff _).mp hpred.2

theorem dataRows_eq_nil {hidx : Option Nat} {rows : List (List Cell)}
    (hall : ∀ r ∈ rows, meaningful (normalizeRow r) = false) :
    dataRows hidx rows = [] := by
  have hfil : rows.enum.filter
      (fun p => decide (hidx ≠ some p.1) && meaningful (normalizeRow p.2)) = [] := by
    rw [List.filter_eq_nil_iff]
    intro p hp
    intro hcontra
    rw [Bool.and_eq_true] at hcontra
    have hfalse := hall p.2 (snd_mem_of_mem_enum hp)
    rw [hfalse] at hcontra
    exact Bool.false_ne_true hcontra.2
  unfold dataRows
  rw [hfil]
  rfl

theorem sourceCAux_eq_none_iff :
    ∀ (rows : List (List Cell)) (i : Nat),
      sourceCAux i rows = none ↔ ∀ r ∈ rows, meaningful (normalizeRow r) = false := by
  intro rows
  induction rows with
  | nil => intro i; simp [sourceCAux]
  | cons r rs ih =>
      intro i
      cases hm : meaningful (normalizeRow r) with
      | true => simp [sourceCAux, hm]
      | false => simp [sourceCAux, hm, ih (i + 1)]

theorem sourceCAux_some_spec :
    ∀ (rows : List (List Cell)) (i k : Nat) (hdr : List String),
      sourceCAux i rows = some (k, hdr) →
      ∃ d, k = i + d ∧ d < rows.length ∧
        meaningful (normalizeRow (rows.getD d [])) = true ∧
        (∀ j, j < d → meaningful (normalizeRow (rows.getD j [])) = false) ∧
        hdr = adoptHeader (normalizeRow (rows.getD d [])) := by
  intro rows
  induction rows with
  | nil => intro i k hdr h; simp [sourceCAux] at h
  | cons r rs ih =>
      intro i k hdr h
      cases hm : meaningful (normalizeRow r) with
      | true =>
          simp [sourceCAux, hm] at h
          refine ⟨0, by omega, by simp, by simpa using hm, ?_, by simp [h.2]⟩
          intro j hj
          omega
      | false =>
          simp only [sourceCAux, hm, if_neg Bool.false_ne_true] at h
          obtain ⟨d, hd1, hd2, hd3, hd4, hd5⟩ := ih (i + 1) k hdr h
          refine ⟨d + 1, by omega, by simpa using Nat.succ_lt_succ hd2, ?_, ?_, ?_⟩
          · simpa [List.getD_cons_succ] using hd3
          · intro j hj
            cases j with
            | zero => simpa using hm
            | succ j' =>
                have : j' < d := by omega
                simpa [List.getD_cons_succ] using hd4 j' this
          · simpa [List.getD_cons_succ] using hd5

/-- C6: when the header section is absent or empty and no body row has
any non-empty normalized cell, `parse_leaderboard` returns the empty
list — no header row is emitted at all. -/
theorem c6_no_header_source_empty (nd : Option String) (t : Table)
    (h1 : t.thead = none ∨ t.thead = some [])
    (h2 : ∀ row ∈ t.tbody.getD [], ∀ c ∈ normalizeRow row, c = "") :
    parse_leaderboard { nextData := nd, table := some t } = [] := by
  have hall : ∀ r ∈ t.tbody.getD [], meaningful (normalizeRow r) = false := by
    intro r hr
    rw [Bool.eq_false_iff]
    intro htrue
    obtain ⟨c, hc, hcne⟩ := (meaningful_iff _).mp htrue
    exact hcne (h2 r hr c hc)
  rw [parse_eq_of_nothead nd t h1,
    (sourceCAux_eq_none_iff (t.tbody.getD []) 0).mpr hall]
  exact dataRows_eq_nil hall

theorem c6_no_header_source_empty_w :
    (∀ row ∈ ({ thead := none, tbody := some [[{ img := none, text := "" }]] } : Table).tbody.getD [],
      ∀ c ∈ normalizeRow row, c = "") ∧
    parse_leaderboard
      { nextData := none,
        table := some { thead := none, tbody := some [[{ img := none, text := "" }]] } } = [] :=
  ⟨by decide,
    c6_no_header_source_empty none
      { thead := none, tbody := some [[{ img := none, text := "" }]] }
      (Or.inl rfl) (by decide)⟩

/-- C8: every row after the header in the output of
`parse_leaderboard` has at least one non-empty cell: a body row whose
normalized cells are all empty is never emitted as a data row. -/
theorem c8_data_rows_meaningful (d : Document) (row : List String)
    (h : row ∈ (parse_leaderboard d).tail) : ∃ c ∈ row, c ≠ "" := by
  obtain ⟨nd, tb⟩ := d
  cases tb with
  | none => simp [parse_leaderboard] at h
  | some t =>
      revert h
      simp only [parse_leaderboard]
      cases hth : t.thead.getD [] with
      | nil =>
          cases hsc : sourceCAux 0 (t.tbody.getD []) with
          | none =>
              intro h
              exact exists_ne_of_mem_dataRows (List.mem_of_mem_tail h)
          | some p =>
              intro h
              rw [List.tail_cons] at h
              exact exists_ne_of_mem_dataRows h
      | cons h0 hrest =>
          intro h
          rw [List.tail_cons] at h
          exact exists_ne_of_mem_dataRows h

theorem c8_data_rows_meaningful_w :
    (["X"] ∈ (parse_leaderboard
      { nextData := none,
        table := some
          { thead := some [["Model"]],
            tbody := some
              [[{ img := some { alt := some ("X"), src := none }, text := "" }]] } }).tail) ∧
    ∃ c ∈ (["X"] : List String), c ≠ "" :=
  ⟨by decide,
    c8_data_rows_meaningful
      { nextData := none,
        table := some
          { thead := some [["Model"]],
            tbody := some
              [[{ img := some { alt := some ("X"), src := none }, text := "" }]] } }
      ["X"] (by decide)⟩

/-- C9: when the first table has no `tbody`, no data rows are emitted
and the Source C fallback never runs: with no `thead` (or an empty
one) the result is empty, with a non-empty `thead` the result is
exactly the chosen header row, and `tr` rows outside any `tbody`
(`looseRows`) never affect the result. -/
theorem c9_no_tbody (nd : Option String) (lr : List (List Cell)) (t : Table)
    (h : t.tbody = none) :
    (t.thead = none → parse_leaderboard { nextData := nd, table := some t } = []) ∧
    (t.thead = some [] → parse_leaderboard { nextData := nd, table := some t } = []) ∧
    (∀ h0 hrest, t.thead = some (h0 :: hrest) →
      parse_leaderboard { nextData := nd, table := some t } =
        [(h0 :: hrest).getD (selectHeaderIdx (h0 :: hrest)) []]) ∧
    parse_leaderboard { nextData := nd, table := some { t with looseRows := lr } } =
      parse_leaderboard { nextData := nd, table := some t } := by
  refine ⟨?_, ?_, ?_, ?_⟩
  · intro hth
    simp [parse_leaderboard, hth, h, sourceCAux, dataRows]
  · intro hth
    simp [parse_leaderboard, hth, h, sourceCAux, dataRows]
  · intro h0 hrest hth
    rw [parse_eq_of_thead nd t h0 hrest hth, h]
    simp [dataRows]
  · rfl

theorem c9_no_tbody_w :
    ({ thead := some [["Model"]], tbody := none } : Table).tbody = none ∧
    ((({ thead := some [["Model"]], tbody := none } : Table).thead = none →
        parse_leaderboard
          { nextData := none,
            table := some { thead := some [["Model"]], tbody := none } } = []) ∧
      (({ thead := some [["Model"]], tbody := none } : Table).thead = some [] →
        parse_leaderboard
          { nextData := none,
            table := some { thead := some [["Model"]], tbody := none } } = []) ∧
      (∀ h0 hrest,
        ({ thead := some [["Model"]], tbody := none } : Table).thead =
          some (h0 :: hrest) →
        parse_leaderboard
          { nextData := none,
            table := some { thead := some [["Model"]], tbody := none } } =
          [(h0 :: hrest).getD (selectHeaderIdx (h0 :: hrest)) []]) ∧
      parse_leaderboard
        { nextData := none,
          table := some
            { thead := some [["Model"]], tbody := none,
              looseRows := [[{ img := none, text := "z" }]] } } =
        parse_leaderboard
          { nextData := none,
            table := some { thead := some [["Model"]], tbody := none } }) :=
  ⟨rfl, c9_no_tbody none [[{ img := none, text := "z" }]]
    { thead := some [["Model"]], tbody := none } rfl⟩

theorem getD_mem_of_lt {α : Type} :
    ∀ (l : List α) (n : Nat) (d : α), n < l.length → l.getD n d ∈ l := by
  intro l
  induction l with
  | nil => intro n d h; simp at h
  | cons a t ih =>
      intro n d h
      cases n with
      | zero => simp
      | succ n' =>
          rw [List.getD_cons_succ]
          refine List.mem_cons_of_mem a (ih n' d ?_)
          simp only [List.length_cons] at h
          omega

theorem bestAAux_no_improve :
    ∀ (l : List (List String)) (idx : Nat) (bi bs : Int),
      (∀ x ∈ l, scoreAInt x ≤ bs) → bestAAux idx bi bs l = (bi, bs) := by
  intro l
  induction l with
  | nil => intro idx bi bs _; rfl
  | cons h t ih =>
      intro idx bi bs hall
      have h1 : ¬ scoreAInt h > bs := not_lt.mpr (hall h (List.mem_cons_self h t))
      simp only [bestAAux, if_neg h1]
      exact ih (idx + 1) bi bs (fun x hx => hall x (List.mem_cons_of_mem h hx))

theorem bestAAux_improve_spec :
    ∀ (l : List (List String)) (idx : Nat) (bi bs : Int),
      (∃ x ∈ l, bs < scoreAInt x) →
      ∃ k, k < l.length ∧
        bestAAux idx bi bs l = (((idx + k : Nat) : Int), scoreAInt (l.getD k [])) ∧
        bs < scoreAInt (l.getD k []) ∧
        (∀ j, j < l.length → scoreAInt (l.getD j []) ≤ scoreAInt (l.getD k [])) ∧
        (∀ j, j < k →
          scoreAInt (l.getD j []) < scoreAInt (l.getD k []) ∨
            scoreAInt (l.getD j []) ≤ bs) := by
  intro l
  induction l with
  | nil =>
      intro idx bi bs hex
      obtain ⟨x, hx, _⟩ := hex
      exact absurd hx (List.not_mem_nil x)
  | cons h t ih =>
      intro idx bi bs hex
      by_cases hc : scoreAInt h > bs
      · by_cases hex2 : ∃ x ∈ t, scoreAInt h < scoreAInt x
        · obtain ⟨k', hk1, hk2, hk3, hk4, hk5⟩ := ih (idx + 1) (idx : Int) (scoreAInt h) hex2
          refine ⟨k' + 1, ?_, ?_, ?_, ?_, ?_⟩
          · simp only [List.length_cons]; omega
          · simp only [bestAAux, if_pos hc]
            rw [hk2]
            have harith : idx + 1 + k' = idx + (k' + 1) := by omega
            rw [harith, List.getD_cons_succ]
          · rw [List.getD_cons_succ]; exact lt_trans hc hk3
          · intro j hj
            cases j with
            | zero =>
                rw [List.getD_cons_zero, List.getD_cons_succ]
                exact le_of_lt hk3
            | succ j' =>
                rw [List.getD_cons_succ, List.getD_cons_succ]
                refine hk4 j' ?_
                simp only [List.length_cons] at hj
                omega
          · intro j hj
            cases j with
            | zero =>
                left
                rw [List.getD_cons_zero, List.getD_cons_succ]
                exact hk3
            | succ j' =>
                have hj' : j' < k' := by omega
                rcases hk5 j' hj' with hlt | hle
                · left
                  rw [List.getD_cons_succ, List.getD_cons_succ]
                  exact hlt
                · left
                  rw [List.getD_cons_succ, List.getD_cons_succ]
                  exact lt_of_le_of_lt hle hk3
        · push_neg at hex2
          have hrest := bestAAux_no_improve t (idx + 1) (idx : Int) (scoreAInt h) hex2
          refine ⟨0, by simp, ?_, by simpa using hc, ?_, by intro j hj; omega⟩
          · simp only [bestAAux, if_pos hc]
            rw [hrest]
            simp
          · intro j hj
            cases j with
            | zero => simp
            | succ j' =>
                rw [List.getD_cons_zero, List.getD_cons_succ]
                refine hex2 (t.getD j' []) (getD_mem_of_lt t j' [] ?_)
                simp only [List.length_cons] at hj
                omega
      · have hc' : scoreAInt h ≤ bs := not_lt.mp hc
        have hex2 : ∃ x ∈ t, bs < scoreAInt x := by
          obtain ⟨x, hx, hbsx⟩ := hex
          rcases List.mem_cons.mp hx with hxh | hxt
          · rw [hxh] at hbsx
            exact absurd hbsx (not_lt.mpr hc')
          · exact ⟨x, hxt, hbsx⟩
        obtain ⟨k', hk1, hk2, hk3, hk4, hk5⟩ := ih (idx + 1) bi bs hex2
        refine ⟨k' + 1, ?_, ?_, ?_, ?_, ?_⟩
        · simp only [List.length_cons]; omega
        · simp only [bestAAux, if_neg hc]
          rw [hk2]
          have harith : idx + 1 + k' = idx + (k' + 1) := by omega
          rw [harith, List.getD_cons_succ]
        · rw [List.getD_cons_succ]; exact hk3
        · intro j hj
          cases j with
          | zero =>
              rw [List.getD_cons_zero, List.getD_cons_succ]
              exact le_trans hc' (le_of_lt hk3)
          | succ j' =>
              rw [List.getD_cons_succ, List.getD_cons_succ]
              refine hk4 j' ?_
              simp only [List.length_cons] at hj
              omega
        · intro j hj
          cases j with
          | zero =>
              right
              rw [List.getD_cons_zero]
              exact hc'
          | succ j' =>
              have hj' : j' < k' := by omega
              rcases hk5 j' hj' with hlt | hle
              · left
                rw [List.getD_cons_succ, List.getD_cons_succ]
                exact hlt
              · right
                rw [List.getD_cons_succ]
                exact hle

theorem scoreAInt_nonneg (h : List String) : 0 ≤ scoreAInt h :=
  Int.natCast_nonneg _

theorem selectHeaderIdx_first_strict_max (l : List (List String)) (hne : l ≠ []) :
    isFirstStrictMaxA l (selectHeaderIdx l) := by
  obtain ⟨h, t, rfl⟩ := List.exists_cons_of_ne_nil hne
  have hex : ∃ x ∈ h :: t, (-1 : Int) < scoreAInt x :=
    ⟨h, List.mem_cons_self h t,
      lt_of_lt_of_le (by norm_num) (scoreAInt_nonneg h)⟩
  obtain ⟨k, hk1, hk2, _, hk4, hk5⟩ := bestAAux_improve_spec (h :: t) 0 (-1) (-1) hex
  have hfst : (bestAAux 0 (-1) (-1) (h :: t)).1 = ((k : Nat) : Int) := by
    rw [hk2]; simp
  have hsel : selectHeaderIdx (h :: t) = k := by
    simp only [selectHeaderIdx]
    rw [if_neg (by rw [hfst]; omega), hfst]
    omega
  rw [hsel]
  refine ⟨hk1, ?_, ?_⟩
  · intro j hj
    have := hk4 j hj
    simp only [scoreAInt, Nat.cast_le] at this
    exact this
  · intro j hj
    rcases hk5 j hj with hlt | hle
    · simp only [scoreAInt, Nat.cast_lt] at hlt
      exact hlt
    · exfalso
      have := scoreAInt_nonneg ((h :: t).getD j [])
      omega

/-- C2 (amended): for every non-empty header section,
`parse_leaderboard` returns as its first row the candidate at the
first index attaining the strictly highest `scoreA` — the count of how
many known label substrings (model, performance, score, rank,
provider, name, accuracy) occur in at least one non-empty cell text of
the candidate, compared case-insensitively. Strict improvement only:
later candidates with an equal count never replace the winner. -/
theorem c2_first_strict_max_header (nd : Option String) (t : Table)
    (hrows : List (List String)) (h1 : t.thead = some hrows) (h2 : hrows ≠ []) :
    ∃ i, isFirstStrictMaxA hrows i ∧
      (parse_leaderboard { nextData := nd, table := some t }).head? =
        some (hrows.getD i []) := by
  obtain ⟨h0, hrest, rfl⟩ := List.exists_cons_of_ne_nil h2
  refine ⟨selectHeaderIdx (h0 :: hrest),
    selectHeaderIdx_first_strict_max (h0 :: hrest) h2, ?_⟩
  rw [parse_eq_of_thead nd t h0 hrest h1]
  rfl

theorem c2_first_strict_max_header_w :
    (([["Model"]] : List (List String)) ≠ []) ∧
    ∃ i, isFirstStrictMaxA [["Model"]] i ∧
      (parse_leaderboard
        { nextData := none,
          table := some { thead := some [["Model"]], tbody := none } }).head? =
        some ([["Model"]].getD i []) :=
  ⟨by decide,
    c2_first_strict_max_header none { thead := some [["Model"]], tbody := none }
      [["Model"]] rfl (by decide)⟩


theorem adoptHeader_ne_empty (cd : List String) : ∀ c ∈ adoptHeader cd, c ≠ "" := by
  intro c hc
  simp only [adoptHeader, List.mem_map] at hc
  obtain ⟨p, _, hfc⟩ := hc
  by_cases ht : strTruthy (strTrim p.2) = true
  · rw [← hfc, if_pos ht]
    exact strTruthy_eq_true.mp ht
  · rw [← hfc, if_neg ht]
    intro hcontra
    have hlen := congrArg String.length hcontra
    rw [String.length_append] at hlen
    have h7 : ("column_" : String).length = 7 := rfl
    have h0 : ("" : String).length = 0 := rfl
    rw [h7, h0] at hlen
    omega

/-- C3 (amended): whenever the header section is absent or empty and
`parse_leaderboard` still returns a non-empty result, every cell of
the first returned row is non-empty (the Source C adoption replaces
blank cells by placeholders). A header selected from the thead
candidates, by contrast, may contain empty cells. -/
theorem c3_sourceC_header_cells_nonempty (nd : Option String) (t : Table)
    (h1 : t.thead = none ∨ t.thead = some [])
    (h2 : parse_leaderboard { nextData := nd, table := some t } ≠ []) :
    ∀ c ∈ (parse_leaderboard { nextData := nd, table := some t }).headD [],
      c ≠ "" := by
  rw [parse_eq_of_nothead nd t h1] at h2 ⊢
  cases hsc : sourceCAux 0 (t.tbody.getD []) with
  | none =>
      rw [hsc] at h2
      exact absurd
        (dataRows_eq_nil ((sourceCAux_eq_none_iff (t.tbody.getD []) 0).mp hsc)) h2
  | some p =>
      obtain ⟨d, _, _, _, _, hd5⟩ :=
        sourceCAux_some_spec (t.tbody.getD []) 0 p.1 p.2 hsc
      intro c hc
      have hc' : c ∈ p.2 := hc
      rw [hd5] at hc'
      exact adoptHeader_ne_empty _ c hc'

theorem c3_sourceC_header_cells_nonempty_w :
    (parse_leaderboard { nextData := none, table := some c3tbl } ≠ []) ∧
    ∀ c ∈ (parse_leaderboard { nextData := none, table := some c3tbl }).headD [],
      c ≠ "" :=
  ⟨by decide, c3_sourceC_header_cells_nonempty none c3tbl (Or.inl rfl) (by decide)⟩

/-- C4 (amended): when the header section is absent or empty and some
body row has a non-empty normalized cell, the first such row (index
`k`) is adopted as the header: each of its cells is kept trimmed when
non-blank and replaced by `column_<1-based-position>` when empty or
whitespace-only, and the data rows are exactly the meaningful rows at
indices other than `k`, so the consumed row never reappears. -/
theorem c4_body_header_adoption (nd : Option String) (t : Table)
    (rows : List (List Cell)) (h1 : t.thead = none ∨ t.thead = some [])
    (h2 : t.tbody = some rows)
    (h3 : ∃ r ∈ rows, meaningful (normalizeRow r) = true) :
    ∃ k, k < rows.length ∧ meaningful (normalizeRow (rows.getD k [])) = true ∧
      (∀ j, j < k → meaningful (normalizeRow (rows.getD j [])) = false) ∧
      parse_leaderboard { nextData := nd, table := some t } =
        adoptHeader (normalizeRow (rows.getD k [])) ::
          ((rows.enum.filter
              (fun p => decide (p.1 ≠ k) && meaningful (normalizeRow p.2))).map
            (fun p => normalizeRow p.2)) := by
  rw [parse_eq_of_nothead nd t h1]
  simp only [h2, Option.getD_some]
  cases hsc : sourceCAux 0 rows with
  | none =>
      exfalso
      obtain ⟨r, hr, hm⟩ := h3
      have hf := (sourceCAux_eq_none_iff rows 0).mp hsc r hr
      rw [hm] at hf
      simp at hf
  | some p =>
      obtain ⟨d, hd1, hd2, hd3, hd4, hd5⟩ :=
        sourceCAux_some_spec rows 0 p.1 p.2 hsc
      have hp1 : p.1 = d := by omega
      refine ⟨d, hd2, hd3, hd4, ?_⟩
      show p.2 :: dataRows (some p.1) rows = _
      rw [hd5, hp1]
      congr 1
      unfold dataRows
      refine congrArg _ ?_
      refine List.filter_congr ?_
      intro q _
      have hiff : (some d ≠ some q.1) ↔ (q.1 ≠ d) := by
        rw [ne_eq, Option.some_inj]
        omega
      rw [decide_eq_decide.mpr hiff]

theorem c4_body_header_adoption_w :
    (∃ r ∈ c4rows, meaningful (normalizeRow r) = true) ∧
    ∃ k, k < c4rows.length ∧ meaningful (normalizeRow (c4rows.getD k [])) = true ∧
      (∀ j, j < k → meaningful (normalizeRow (c4rows.getD j [])) = false) ∧
      parse_leaderboard { nextData := none, table := some c4tbl } =
        adoptHeader (normalizeRow (c4rows.getD k [])) ::
          ((c4rows.enum.filter
              (fun p => decide (p.1 ≠ k) && meaningful (normalizeRow p.2))).map
            (fun p => normalizeRow p.2)) :=
  ⟨by decide, c4_body_header_adoption none c4tbl c4rows (Or.inl rfl) rfl (by decide)⟩
